import Mathlib

/-!
Verification of the tempo trace-storage core against its specification.

Shallow embedding of the parts of the source the claims touch:
- the cache backend decorator (tempodb/backend/cache): Read, Write, ReadRange;
- the block write paths (tempodb/encoding): writeBlockMeta and CopyBlock;
- the paged finder (tempodb/encoding/finder_paged.go);
- the sharded bloom filter probe path (cmd/tempo-cli/cmd-gen-bloom.go and
  the spec of common.ShardedBloomFilter);
- GCS error normalization (readError, specified by its test);
- single-binary config forcing in cmd/tempo/main.go loadConfig.

Go byte slices are modelled as `List Nat` (a nil slice is the empty list),
Go errors as `Except String` or `Option String`, and the side effects of a
decorator as an explicit trace of events.
-/

namespace Tempo

/-- Raw object bytes, as handled by the backend interfaces. -/
abbrev Bytes := List Nat

/-- An ordered list of path segments, such as [tenant, blockID]. -/
abbrev KeyPath := List String

namespace Cache

/-- Cache key construction, from the source function key:
join(keypath, ":") + ":" + name. -/
def key (keypath : KeyPath) (name : String) : String :=
  String.intercalate ":" keypath ++ ":" ++ name

/-- Contents of the key-value cache: an association list from keys to values. -/
abbrev CacheState := List (String × Bytes)

/-- Model of cortex cache Fetch for a single key: lookup in the association list. -/
def cacheFetch (c : CacheState) (k : String) : Option Bytes :=
  c.lookup k

/-- Model of cortex cache Store for a single key. -/
def cacheStore (c : CacheState) (k : String) (v : Bytes) : CacheState :=
  (k, v) :: c

/-- One observable side effect of the cache decorator: an interaction with
the cache or a delegation to the underlying reader or writer. -/
inductive Event
  | cacheFetch (k : String)
  | cacheStore (k : String) (v : Bytes)
  | nextRead (name : String) (keypath : KeyPath) (shouldCache : Bool)
  | nextWrite (name : String) (keypath : KeyPath) (v : Bytes) (shouldCache : Bool)
  | nextReadRange (name : String) (keypath : KeyPath) (offset : Nat)
  deriving DecidableEq

/-- Whether an event touches the cache. -/
def Event.isCacheOp : Event → Bool
  | .cacheFetch _ => true
  | .cacheStore _ _ => true
  | _ => false

/-- Result of a decorated read: the returned value (or error), the cache
state after the call, and the trace of side effects in order. -/
structure ReadResult where
  value : Except String Bytes
  cache : CacheState
  events : List Event

/-- Result of a decorated write or range read. -/
structure WriteResult where
  value : Except String Unit
  cache : CacheState
  events : List Event

/-- Shallow embedding of readerWriter.Read of the cache decorator. The
underlying reader (nextReader.Read composed with ReadAllWithEstimate) is the
oracle next; the decorator always delegates with shouldCache=false. -/
def Read (next : String → KeyPath → Bool → Except String Bytes)
    (c : CacheState) (name : String) (keypath : KeyPath) (shouldCache : Bool) :
    ReadResult :=
  if shouldCache then
    let k := key keypath name
    match cacheFetch c k with
    | some v => ⟨.ok v, c, [.cacheFetch k]⟩
    | none =>
      match next name keypath false with
      | .error e => ⟨.error e, c, [.cacheFetch k, .nextRead name keypath false]⟩
      | .ok b =>
          ⟨.ok b, cacheStore c k b,
            [.cacheFetch k, .nextRead name keypath false, .cacheStore k b]⟩
  else
    ⟨next name keypath false, c, [.nextRead name keypath false]⟩

/-- Shallow embedding of readerWriter.Write. The incoming data has already
passed through ReadAllWithEstimate, whose failure is the .error case; on
that failure the source returns before touching the cache or delegating. -/
def Write (nextW : String → KeyPath → Bytes → Bool → Except String Unit)
    (c : CacheState) (name : String) (keypath : KeyPath)
    (data : Except String Bytes) (shouldCache : Bool) : WriteResult :=
  match data with
  | .error e => ⟨.error e, c, []⟩
  | .ok b =>
    if shouldCache then
      ⟨nextW name keypath b false, cacheStore c (key keypath name) b,
        [.cacheStore (key keypath name) b, .nextWrite name keypath b false]⟩
    else
      ⟨nextW name keypath b false, c, [.nextWrite name keypath b false]⟩

/-- Shallow embedding of readerWriter.ReadRange: a direct delegation to the
underlying reader. -/
def ReadRange (nextRR : String → KeyPath → Nat → Except String Unit)
    (c : CacheState) (name : String) (keypath : KeyPath) (offset : Nat) :
    WriteResult :=
  ⟨nextRR name keypath offset, c, [.nextReadRange name keypath offset]⟩

end Cache

namespace Encoding

/-- Backend object name of the block data object. -/
def nameObjects : String := "data"

/-- Backend object name of the block index object. -/
def nameIndex : String := "index"

/-- Prefix used to build the bloom shard object names. -/
def nameBloomPrefix : String := "bloom-"

/-- Backend object name of the block meta document. -/
def nameMeta : String := "meta.json"

/-- Backend bloom object name for the given shard, from the source bloomName. -/
def bloomName (shard : Nat) : String := nameBloomPrefix ++ toString shard

/-- A backend writer for one block: an oracle saying which object writes
succeed, and the ordered trace of object names written so far. -/
structure BWriter where
  writeOk : String → Bool
  written : List String

/-- One backend Write of a named object: on success the name is appended to
the write trace; on failure the state is unchanged and the name is returned
as the error. -/
def bwWrite (w : BWriter) (name : String) : BWriter × Option String :=
  if w.writeOk name then ({ w with written := w.written ++ [name] }, none)
  else (w, some name)

/-- The bloom-shard write loop of writeBlockMeta: writes bloom-i, bloom-(i+1),
and so on for k shards, stopping at the first failure. -/
def writeBlooms (w : BWriter) (i : Nat) : Nat → BWriter × Option String
  | 0 => (w, none)
  | k + 1 =>
    match bwWrite w (bloomName i) with
    | (w2, some e) => (w2, some e)
    | (w2, none) => writeBlooms w2 (i + 1) k

/-- Shallow embedding of writeBlockMeta: marshal the blooms, write the index,
write each of the n bloom shards, and write the meta last; every failure
returns immediately. The marshalOk flag is whether
ShardedBloomFilter.Marshal succeeds. -/
def writeBlockMeta (marshalOk : Bool) (n : Nat) (w : BWriter) :
    BWriter × Option String :=
  if marshalOk = false then (w, some "marshal")
  else
    match bwWrite w nameIndex with
    | (w1, some e) => (w1, some e)
    | (w1, none) =>
      match writeBlooms w1 0 n with
      | (w2, some e) => (w2, some e)
      | (w2, none) => bwWrite w2 nameMeta

/-- Modelled from the spec: the block writer that calls writeBlockMeta is not
under src/; per the spec the completion step does "flush final page; write
data object; write index; marshal and write each bloom shard; write meta
last", where everything after the data object is the source function
writeBlockMeta. -/
def completeBlock (marshalOk : Bool) (n : Nat) (w : BWriter) :
    BWriter × Option String :=
  match bwWrite w nameObjects with
  | (w1, some e) => (w1, some e)
  | (w1, none) => writeBlockMeta marshalOk n w1

/-- The two backends of CopyBlock: whether reading an object from the source
succeeds, and whether writing it to the destination succeeds. -/
structure CopyEnv where
  readOk : String → Bool
  writeOk : String → Bool

/-- One copy step of CopyBlock (copyStream and copy share this shape): read
the named object from the source backend, then write it to the destination;
either failure aborts the copy. The state is the destination write trace. -/
def copyOne (env : CopyEnv) (st : List String) (name : String) :
    List String × Option String :=
  if env.readOk name = false then (st, some ("error reading " ++ name))
  else if env.writeOk name = false then (st, some name)
  else (st ++ [name], none)

/-- The bloom copy loop of CopyBlock, copying k shards starting at shard i. -/
def copyBlooms (env : CopyEnv) (st : List String) (i : Nat) :
    Nat → List String × Option String
  | 0 => (st, none)
  | k + 1 =>
    match copyOne env st (bloomName i) with
    | (st2, some e) => (st2, some e)
    | (st2, none) => copyBlooms env st2 (i + 1) k

/-- Shallow embedding of CopyBlock: copy the data object, the n bloom shards
(n stands for ValidateShardCount(meta.BloomShardCount)), the index, and then
write the meta to the destination last; every failure returns immediately. -/
def CopyBlock (env : CopyEnv) (n : Nat) (st : List String) :
    List String × Option String :=
  match copyOne env st nameObjects with
  | (st1, some e) => (st1, some e)
  | (st1, none) =>
    match copyBlooms env st1 0 n with
    | (st2, some e) => (st2, some e)
    | (st2, none) =>
      match copyOne env st2 nameIndex with
      | (st3, some e) => (st3, some e)
      | (st3, none) =>
        if env.writeOk nameMeta then (st3 ++ [nameMeta], none)
        else (st3, some nameMeta)

/-- An opaque trace identifier, a byte string (common.ID). -/
abbrev ID := List Nat

/-- An index entry (common.Record): trace id, page offset, page length. -/
structure Record where
  id : ID
  start : Nat
  length : Nat
  deriving DecidableEq

/-- The objects of one data page in on-page order: pairs of id and bytes. -/
abbrev Page := List (ID × Bytes)

/-- Shallow embedding of pagedFinder: the index records, the data reader as
a function from a record to the pages holding it, and the optional combiner
(ObjectCombiner.Combine with the dataEncoding already applied). -/
structure PagedFinder where
  index : List Record
  pages : Record → List Page
  combiner : Option (Bytes → Bytes → Bytes)

/-- Modelled from the spec: the index reader is not under src/; its At(i) is
positional access into the fixed-width record array, nil past the end. -/
def indexAt (idx : List Record) (i : Nat) : Option Record := idx.get? i

/-- Helper for indexFind: first record matching the id, counting from i. -/
def indexFindAux (id : ID) : List Record → Nat → Option (Record × Nat)
  | [], _ => none
  | r :: rest, i => if r.id = id then some (r, i) else indexFindAux id rest (i + 1)

/-- Modelled from the spec: the index reader is not under src/; its Find is a
binary search over the id-sorted records which returns the first record whose
id equals the target together with its position, or nil when the id is not
in the block. -/
def indexFind (idx : List Record) (id : ID) : Option (Record × Nat) :=
  indexFindAux id idx 0

/-- Helper for the deduping iterator: combine the run of leading objects
whose id is i into the accumulator, left to right, returning the combined
bytes and the remaining objects. -/
def dedupRun (c : Bytes → Bytes → Bytes) (i : ID) (acc : Bytes) :
    Page → Bytes × Page
  | [] => (acc, [])
  | (j, b) :: rest =>
    if j = i then dedupRun c i (c acc b) rest
    else (acc, (j, b) :: rest)

/-- Fuel-indexed recursion for dedupPage; the fuel is the page length, which
bounds the number of distinct runs. -/
def dedupPageFuel (c : Bytes → Bytes → Bytes) : Nat → Page → Page
  | 0, _ => []
  | _, [] => []
  | fuel + 1, (i, b) :: rest =>
    match dedupRun c i b rest with
    | (acc, rest2) => (i, acc) :: dedupPageFuel c fuel rest2

/-- Modelled from the spec: the NewDedupingIterator wrapped around a page
iterator when a combiner is set is not under src/; it yields the page's
objects with each run of consecutive equal ids combined left to right. -/
def dedupPage (c : Bytes → Bytes → Bytes) (p : Page) : Page :=
  dedupPageFuel c p.length p

/-- Shallow embedding of pagedFinder.findOne: read the single page of the
record (erroring on zero pages), iterate its objects — deduplicated when a
combiner is set — and return the bytes of the first object whose id equals
the target, or a nil slice when the page holds none. -/
def PagedFinder.findOne (f : PagedFinder) (id : ID) (r : Record) :
    Except String Bytes :=
  match f.pages r with
  | [] => .error "unexpected 0 length pages in findOne"
  | p :: _ =>
    let objs := match f.combiner with
      | some c => dedupPage c p
      | none => p
    match objs.find? (fun o => o.1 == id) with
    | some o => .ok o.2
    | none => .ok []

/-- Shallow embedding of the loop in pagedFinder.Find, from the record at
index position i with the accumulated bytes so far: find the object in the
record's page; without a combiner return it; with a combiner combine it,
advance to index position i+1, and continue while the next record's id
equals the target. -/
def PagedFinder.findFrom (f : PagedFinder) (id : ID) (r : Record) (i : Nat)
    (acc : Bytes) : Except String Bytes :=
  match PagedFinder.findOne f id r with
  | .error e => .error e
  | .ok bytesOne =>
    match f.combiner with
    | none => .ok bytesOne
    | some c =>
      match h : indexAt f.index (i + 1) with
      | none => .ok (c acc bytesOne)
      | some r2 =>
        if r2.id = id then PagedFinder.findFrom f id r2 (i + 1) (c acc bytesOne)
        else .ok (c acc bytesOne)
termination_by f.index.length - i
decreasing_by
  simp [indexAt] at h
  obtain ⟨hlt, -⟩ := List.getElem?_eq_some.mp h
  omega

/-- Shallow embedding of pagedFinder.Find: look the id up in the index; when
no record is found return a nil slice and nil error; otherwise run the fetch
and combine loop from the found position with a nil accumulator. -/
def PagedFinder.Find (f : PagedFinder) (id : ID) : Except String Bytes :=
  match indexFind f.index id with
  | none => .ok []
  | some (r, i) => PagedFinder.findFrom f id r i []

/-- The run of consecutive index records whose id equals the target starting
at position i, following the words of the spec: stop at the first
non-matching id or the end of the index. -/
def matchRun (idx : List Record) (id : ID) (i : Nat) : List Record :=
  (idx.drop i).takeWhile (fun r => r.id == id)

end Encoding

namespace Common

/-- Modelled from the spec: the deterministic fast function on the id bytes
used for shard selection — the big-endian 32-bit word formed by the first
four bytes of the trace id, zero when the id is shorter than four bytes. -/
def first4Bytes : Encoding.ID → Nat
  | b0 :: b1 :: b2 :: b3 :: _ => ((b0 * 256 + b1) * 256 + b2) * 256 + b3
  | _ => 0

/-- Modelled from the spec: common.ShardKeyForTraceID is not under src/ (only
its caller testBloom is); per the spec the shard for an id is
first4Bytes(id) mod shardCount. -/
def ShardKeyForTraceID (id : Encoding.ID) (shardCount : Nat) : Nat :=
  first4Bytes id % shardCount

/-- Modelled from the spec: common.ShardedBloomFilter is not under src/; each
of the shards is a classical bit-array bloom, abstracted as the list of set
bit positions, and all shards share the k hash functions. -/
structure ShardedBloomFilter where
  hashes : List (Encoding.ID → Nat)
  shards : List (List Nat)

/-- The shard count of a sharded bloom filter. -/
def ShardedBloomFilter.GetShardCount (b : ShardedBloomFilter) : Nat :=
  b.shards.length

/-- Modelled from the spec: Add(id) sets, in the shard selected by
ShardKeyForTraceID, the bit positions given by the hash functions on id. -/
def ShardedBloomFilter.Add (b : ShardedBloomFilter) (id : Encoding.ID) :
    ShardedBloomFilter :=
  let key := ShardKeyForTraceID id b.GetShardCount
  { b with shards :=
      b.shards.set key ((b.hashes.map fun h => h id) ++ b.shards.getD key []) }

/-- Modelled from the spec: Test(id) probes the shard selected by
ShardKeyForTraceID and reports whether every hash position of id is set. -/
def ShardedBloomFilter.Test (b : ShardedBloomFilter) (id : Encoding.ID) : Bool :=
  let key := ShardKeyForTraceID id b.GetShardCount
  (b.hashes.map fun h => h id).all fun p => (b.shards.getD key []).contains p

end Common

namespace Gcs

/-- Modelled from the spec: the Go error values reaching the GCS backend's
readError — the object store's not-found error storage.ErrObjectNotExist,
the canonical backend.ErrDoesNotExist, and any other error carrying its
message. -/
inductive GoError
  | errObjectNotExist
  | errDoesNotExist
  | other (msg : String)
  deriving DecidableEq

/-- Modelled from the spec: readError of the GCS backend is not under src/
(only its test TestReadError is); errors are normalized by mapping the
object store's not-found error to the single canonical ErrDoesNotExist and
returning every other error unchanged. -/
def readError : GoError → GoError
  | .errObjectNotExist => .errDoesNotExist
  | e => e

end Gcs

namespace App

/-- The deployment target of the single binary (app.Target); All is the
single-binary mode. -/
inductive Target
  | All
  | Distributor
  | Ingester
  | Querier
  | QueryFrontend
  | Compactor
  deriving DecidableEq

/-- The ingester lifecycler's ring config: the KV store name, the
replication factor, and a rest field standing for every other ring config
field, which loadConfig never touches. -/
structure RingConfig where
  kvStore : String
  replicationFactor : Nat
  rest : String
  deriving DecidableEq

/-- The ingester lifecycler config: its ring config, the lifecycler address,
and a rest field for the untouched remainder. -/
structure LifecyclerConfig where
  ringConfig : RingConfig
  addr : String
  rest : String
  deriving DecidableEq

/-- The ingester config: its lifecycler config and a rest field for the
untouched remainder. -/
structure IngesterConfig where
  lifecyclerConfig : LifecyclerConfig
  rest : String
  deriving DecidableEq

/-- The app config as it stands after defaults, config file overlay and flag
overlay inside loadConfig; rest stands for every config field other than the
target and the ingester section. -/
structure Config where
  target : Target
  ingester : IngesterConfig
  rest : String
  deriving DecidableEq

/-- Shallow embedding of the final step of loadConfig in cmd/tempo/main.go:
given the config as loaded, when the target is the single-binary All mode,
force the ingester lifecycler ring KV store to inmemory, the ring
replication factor to 1 and the lifecycler address to 127.0.0.1; otherwise
return the config unchanged. -/
def loadConfig (config : Config) : Config :=
  if config.target = Target.All then
    { config with ingester :=
      { config.ingester with lifecyclerConfig :=
        { config.ingester.lifecyclerConfig with
          addr := "127.0.0.1"
          ringConfig :=
            { config.ingester.lifecyclerConfig.ringConfig with
              kvStore := "inmemory"
              replicationFactor := 1 } } } }
  else config

end App

end Tempo

namespace Tempo

open Cache

/-- C10: the cache decorator's ReadRange delegates directly to the underlying
reader and never consults or modifies the cache: its result is the underlying
result, the cache state is unchanged, and its event trace is exactly one
delegation with no cache operation. -/
theorem ReadRange_never_touches_cache
    (nextRR : String → KeyPath → Nat → Except String Unit)
    (c : CacheState) (name : String) (keypath : KeyPath) (offset : Nat) :
    (Cache.ReadRange nextRR c name keypath offset).value = nextRR name keypath offset ∧
    (Cache.ReadRange nextRR c name keypath offset).cache = c ∧
    (Cache.ReadRange nextRR c name keypath offset).events
      = [Event.nextReadRange name keypath offset] ∧
    ((Cache.ReadRange nextRR c name keypath offset).events.all
      fun e => !e.isCacheOp) = true := by
  refine ⟨rfl, rfl, rfl, ?_⟩
  simp [Cache.ReadRange, List.all, Event.isCacheOp]

/-- C5: the cache decorator's Read consults the cache only when shouldCache is
true: with shouldCache=false it delegates with no cache interaction; with
shouldCache=true it first fetches the key, returns a hit without delegating,
and on a miss delegates and populates the cache exactly when the fetch
succeeded. -/
theorem Read_cache_policy
    (next : String → KeyPath → Bool → Except String Bytes)
    (c : CacheState) (name : String) (keypath : KeyPath) :
    (Cache.Read next c name keypath false
      = ⟨next name keypath false, c, [Event.nextRead name keypath false]⟩) ∧
    (∀ v, cacheFetch c (key keypath name) = some v →
      Cache.Read next c name keypath true
        = ⟨.ok v, c, [Event.cacheFetch (key keypath name)]⟩) ∧
    (cacheFetch c (key keypath name) = none →
      (∀ e, next name keypath false = .error e →
        Cache.Read next c name keypath true
          = ⟨.error e, c, [Event.cacheFetch (key keypath name),
              Event.nextRead name keypath false]⟩) ∧
      (∀ b, next name keypath false = .ok b →
        Cache.Read next c name keypath true
          = ⟨.ok b, cacheStore c (key keypath name) b,
              [Event.cacheFetch (key keypath name),
               Event.nextRead name keypath false,
               Event.cacheStore (key keypath name) b]⟩)) := by
  refine ⟨rfl, ?_, ?_⟩
  · intro v hv
    simp [Cache.Read, hv]
  · intro hmiss
    constructor
    · intro e he
      simp [Cache.Read, hmiss, he]
    · intro b hb
      simp [Cache.Read, hmiss, hb]

/-- Witness for C5 at concrete inputs: a hit returns the cached bytes without
delegating, and a miss on the empty cache stores the fetched bytes. -/
theorem Read_cache_policy_witness :
    (Cache.Read (fun _ _ _ => .ok [9]) [(key ["t"] "n", [7])] "n" ["t"] true
      = ⟨.ok [7], [(key ["t"] "n", [7])], [Event.cacheFetch (key ["t"] "n")]⟩) ∧
    (Cache.Read (fun _ _ _ => .ok [9]) [] "n" ["t"] true
      = ⟨.ok [9], cacheStore [] (key ["t"] "n") [9],
          [Event.cacheFetch (key ["t"] "n"), Event.nextRead "n" ["t"] false,
           Event.cacheStore (key ["t"] "n") [9]]⟩) :=
  ⟨(Read_cache_policy (fun _ _ _ => .ok [9]) [(key ["t"] "n", [7])] "n" ["t"]).2.1
      [7] (by simp [cacheFetch]),
   ((Read_cache_policy (fun _ _ _ => .ok [9]) [] "n" ["t"]).2.2 rfl).2 [9] rfl⟩

/-- C6: the cache decorator's Write with shouldCache=true stores the bytes
under join(keypath, ":") + ":" + name before delegating (the store event
precedes the delegation event in the trace); with shouldCache=false the cache
is untouched. -/
theorem Write_cache_policy
    (nextW : String → KeyPath → Bytes → Bool → Except String Unit)
    (c : CacheState) (name : String) (keypath : KeyPath) (b : Bytes) :
    (Cache.Write nextW c name keypath (.ok b) true
      = ⟨nextW name keypath b false, cacheStore c (key keypath name) b,
          [Event.cacheStore (key keypath name) b,
           Event.nextWrite name keypath b false]⟩) ∧
    (Cache.Write nextW c name keypath (.ok b) false
      = ⟨nextW name keypath b false, c, [Event.nextWrite name keypath b false]⟩) ∧
    ((Cache.Write nextW c name keypath (.ok b) false).events.all
      fun e => !e.isCacheOp) = true := by
  refine ⟨rfl, rfl, ?_⟩
  simp [Cache.Write, List.all, Event.isCacheOp]

end Tempo

namespace Tempo.Encoding

/-- No bloom shard object name collides with the meta object name. -/
lemma bloomName_ne_meta (j : Nat) : bloomName j ≠ nameMeta := by
  intro h
  have h2 : (bloomName j).data = nameMeta.data := congrArg String.data h
  simp [bloomName, nameBloomPrefix, nameMeta, String.data_append] at h2

/-- The bloom write loop appends only bloom shard names to the write trace,
and on success appends exactly the k shard names starting at shard i. -/
lemma writeBlooms_trace (k : Nat) : ∀ (i : Nat) (w : BWriter),
    (writeBlooms w i k).1.writeOk = w.writeOk ∧
    ∃ l, (writeBlooms w i k).1.written = w.written ++ l ∧
      (∀ x ∈ l, ∃ j, x = bloomName j) ∧
      ((writeBlooms w i k).2 = none →
        l = (List.range k).map fun j => bloomName (i + j)) := by
  induction k with
  | zero =>
    intro i w
    refine ⟨rfl, [], by simp [writeBlooms], by simp, ?_⟩
    intro _
    simp
  | succ k ih =>
    intro i w
    by_cases hw : w.writeOk (bloomName i)
    · have hstep : writeBlooms w i (k + 1)
          = writeBlooms { w with written := w.written ++ [bloomName i] } (i + 1) k := by
        simp [writeBlooms, bwWrite, hw]
      obtain ⟨hok, l, hl, hmem, hnone⟩ := ih (i + 1) { w with written := w.written ++ [bloomName i] }
      rw [hstep]
      refine ⟨hok, bloomName i :: l, ?_, ?_, ?_⟩
      · rw [hl]; simp
      · intro x hx
        rcases List.mem_cons.mp hx with hx | hx
        · exact ⟨i, hx⟩
        · exact hmem x hx
      · intro hn
        rw [hnone hn, List.range_succ_eq_map]
        simp [List.map_map]
        intro a _
        congr 1
        omega
    · refine ⟨?_, [], ?_, by simp, ?_⟩
      · simp [writeBlooms, bwWrite, hw]
      · simp [writeBlooms, bwWrite, hw]
      · simp [writeBlooms, bwWrite, hw]

/-- On success writeBlockMeta appends exactly index, the n bloom shards and
the meta, in that order; on failure it never writes the meta. -/
lemma writeBlockMeta_trace (marshalOk : Bool) (n : Nat) (w : BWriter) :
    ((writeBlockMeta marshalOk n w).2 = none →
      (writeBlockMeta marshalOk n w).1.written
        = w.written ++ [nameIndex] ++ (List.range n).map bloomName ++ [nameMeta]) ∧
    (∀ e, (writeBlockMeta marshalOk n w).2 = some e →
      ∃ l, (writeBlockMeta marshalOk n w).1.written = w.written ++ l ∧ nameMeta ∉ l) := by
  cases marshalOk with
  | false =>
    refine ⟨by simp [writeBlockMeta], ?_⟩
    intro e _
    exact ⟨[], by simp [writeBlockMeta], by simp⟩
  | true =>
    by_cases hw : w.writeOk nameIndex
    · have h1 : writeBlockMeta true n w =
          (match writeBlooms { w with written := w.written ++ [nameIndex] } 0 n with
           | (w2, some e) => (w2, some e)
           | (w2, none) => bwWrite w2 nameMeta) := by
        simp [writeBlockMeta, bwWrite, hw]
      obtain ⟨hok, l, hl, hmem, hnone⟩ :=
        writeBlooms_trace n 0 { w with written := w.written ++ [nameIndex] }
      rcases hres : writeBlooms { w with written := w.written ++ [nameIndex] } 0 n with ⟨w2, r⟩
      rw [hres] at h1 hok hl hnone
      simp only at hok hl
      have hmeta_ne : ∀ x ∈ l, x ≠ nameMeta := by
        intro x hx hcon
        obtain ⟨j, hj⟩ := hmem x hx
        exact bloomName_ne_meta j (hj ▸ hcon)
      cases r with
      | some e =>
        refine ⟨by rw [h1]; simp, ?_⟩
        intro e2 _
        refine ⟨nameIndex :: l, ?_, ?_⟩
        · rw [h1]
          simp only [hl]
          simp
        · intro hcon
          rcases List.mem_cons.mp hcon with hcon | hcon
          · exact absurd hcon (by decide)
          · exact hmeta_ne nameMeta hcon rfl
      | none =>
        have hleq : l = (List.range n).map bloomName := by
          rw [hnone rfl]
          simp
        by_cases hm : w2.writeOk nameMeta
        · refine ⟨?_, ?_⟩
          · intro _
            rw [h1]
            simp [bwWrite, hm, hl, hleq]
          · intro e2 he2
            rw [h1] at he2
            simp [bwWrite, hm] at he2
        · refine ⟨?_, ?_⟩
          · intro hcon
            rw [h1] at hcon
            simp [bwWrite, hm] at hcon
          · intro e2 _
            refine ⟨nameIndex :: l, ?_, ?_⟩
            · rw [h1]
              simp [bwWrite, hm, hl]
            · intro hcon
              rcases List.mem_cons.mp hcon with hcon | hcon
              · exact absurd hcon (by decide)
              · exact hmeta_ne nameMeta hcon rfl
    · refine ⟨by simp [writeBlockMeta, bwWrite, hw], ?_⟩
      intro e _
      exact ⟨[], by simp [writeBlockMeta, bwWrite, hw], by simp⟩

/-- On success the writer completion appends exactly data, index, the n bloom
shards and the meta, in that order; on failure it never writes the meta. -/
lemma completeBlock_trace (marshalOk : Bool) (n : Nat) (w : BWriter) :
    ((completeBlock marshalOk n w).2 = none →
      (completeBlock marshalOk n w).1.written
        = w.written ++ [nameObjects, nameIndex] ++ (List.range n).map bloomName ++ [nameMeta]) ∧
    (∀ e, (completeBlock marshalOk n w).2 = some e →
      ∃ l, (completeBlock marshalOk n w).1.written = w.written ++ l ∧ nameMeta ∉ l) := by
  by_cases hd : w.writeOk nameObjects
  · have h1 : completeBlock marshalOk n w
        = writeBlockMeta marshalOk n { w with written := w.written ++ [nameObjects] } := by
      simp [completeBlock, bwWrite, hd]
    obtain ⟨hok, hfail⟩ := writeBlockMeta_trace marshalOk n { w with written := w.written ++ [nameObjects] }
    refine ⟨?_, ?_⟩
    · intro hn
      rw [h1] at hn ⊢
      rw [hok hn]
      simp
    · intro e he
      rw [h1] at he ⊢
      obtain ⟨l, hl, hni⟩ := hfail e he
      refine ⟨nameObjects :: l, ?_, ?_⟩
      · rw [hl]; simp
      · intro hcon
        rcases List.mem_cons.mp hcon with hcon | hcon
        · exact absurd hcon (by decide)
        · exact hni hcon
  · refine ⟨by simp [completeBlock, bwWrite, hd], ?_⟩
    intro e _
    exact ⟨[], by simp [completeBlock, bwWrite, hd], by simp⟩

/-- A copy step succeeds when both the source read and the destination write
succeed, appending the object name to the destination trace. -/
lemma copyOne_ok (env : CopyEnv) (st : List String) (name : String)
    (hr : env.readOk name = true) (hw : env.writeOk name = true) :
    copyOne env st name = (st ++ [name], none) := by
  simp [copyOne, hr, hw]

/-- A copy step fails without writing when the read or the write fails. -/
lemma copyOne_fail (env : CopyEnv) (st : List String) (name : String)
    (h : ¬(env.readOk name = true ∧ env.writeOk name = true)) :
    ∃ e, copyOne env st name = (st, some e) := by
  by_cases hr : env.readOk name = true
  · by_cases hw : env.writeOk name = true
    · exact absurd ⟨hr, hw⟩ h
    · exact ⟨name, by simp [copyOne, hr, hw]⟩
  · exact ⟨"error reading " ++ name, by simp [copyOne, hr]⟩

/-- The bloom copy loop appends only bloom shard names, and on success
appends exactly the k shard names starting at shard i. -/
lemma copyBlooms_trace (env : CopyEnv) (k : Nat) : ∀ (i : Nat) (st : List String),
    ∃ l, (copyBlooms env st i k).1 = st ++ l ∧
      (∀ x ∈ l, ∃ j, x = bloomName j) ∧
      ((copyBlooms env st i k).2 = none →
        l = (List.range k).map fun j => bloomName (i + j)) := by
  induction k with
  | zero =>
    intro i st
    exact ⟨[], by simp [copyBlooms], by simp, fun _ => by simp⟩
  | succ k ih =>
    intro i st
    by_cases hok : env.readOk (bloomName i) = true ∧ env.writeOk (bloomName i) = true
    · have hstep : copyBlooms env st i (k + 1)
          = copyBlooms env (st ++ [bloomName i]) (i + 1) k := by
        simp [copyBlooms, copyOne_ok env st (bloomName i) hok.1 hok.2]
      obtain ⟨l, hl, hmem, hnone⟩ := ih (i + 1) (st ++ [bloomName i])
      rw [hstep]
      refine ⟨bloomName i :: l, ?_, ?_, ?_⟩
      · rw [hl]; simp
      · intro x hx
        rcases List.mem_cons.mp hx with hx | hx
        · exact ⟨i, hx⟩
        · exact hmem x hx
      · intro hn
        rw [hnone hn, List.range_succ_eq_map]
        simp [List.map_map]
        intro a _
        congr 1
        omega
    · obtain ⟨e, he⟩ := copyOne_fail env st (bloomName i) hok
      have hstep : copyBlooms env st i (k + 1) = (st, some e) := by
        simp [copyBlooms, he]
      rw [hstep]
      exact ⟨[], by simp, by simp, by simp⟩

/-- On success CopyBlock appends exactly data, the n bloom shards, index and
the meta, in that order; on failure it never writes the meta. -/
lemma CopyBlock_trace (env : CopyEnv) (n : Nat) (st : List String) :
    ((CopyBlock env n st).2 = none →
      (CopyBlock env n st).1
        = st ++ [nameObjects] ++ (List.range n).map bloomName ++ [nameIndex, nameMeta]) ∧
    (∀ e, (CopyBlock env n st).2 = some e →
      ∃ l, (CopyBlock env n st).1 = st ++ l ∧ nameMeta ∉ l) := by
  by_cases hd : env.readOk nameObjects = true ∧ env.writeOk nameObjects = true
  · have h1 : CopyBlock env n st
        = (match copyBlooms env (st ++ [nameObjects]) 0 n with
           | (st2, some e) => (st2, some e)
           | (st2, none) =>
             match copyOne env st2 nameIndex with
             | (st3, some e) => (st3, some e)
             | (st3, none) =>
               if env.writeOk nameMeta then (st3 ++ [nameMeta], none)
               else (st3, some nameMeta)) := by
      simp [CopyBlock, copyOne_ok env st nameObjects hd.1 hd.2]
    obtain ⟨l, hl, hmem, hnone⟩ := copyBlooms_trace env n 0 (st ++ [nameObjects])
    rcases hres : copyBlooms env (st ++ [nameObjects]) 0 n with ⟨st2, r⟩
    rw [hres] at h1 hl hnone
    simp only at hl
    have hmeta_ne : ∀ x ∈ l, x ≠ nameMeta := by
      intro x hx hcon
      obtain ⟨j, hj⟩ := hmem x hx
      exact bloomName_ne_meta j (hj ▸ hcon)
    cases r with
    | some e =>
      refine ⟨by rw [h1]; simp, ?_⟩
      intro e2 _
      refine ⟨nameObjects :: l, by rw [h1]; simp [hl], ?_⟩
      intro hcon
      rcases List.mem_cons.mp hcon with hcon | hcon
      · exact absurd hcon (by decide)
      · exact hmeta_ne nameMeta hcon rfl
    | none =>
      have hleq : l = (List.range n).map bloomName := by
        rw [hnone rfl]
        simp
      by_cases hi : env.readOk nameIndex = true ∧ env.writeOk nameIndex = true
      · have h2 : CopyBlock env n st
            = (if env.writeOk nameMeta then ((st2 ++ [nameIndex]) ++ [nameMeta], none)
               else (st2 ++ [nameIndex], some nameMeta)) := by
          rw [h1]
          simp [copyOne_ok env st2 nameIndex hi.1 hi.2]
        by_cases hm : env.writeOk nameMeta = true
        · refine ⟨?_, ?_⟩
          · intro _
            rw [h2]
            simp [hm, hl, hleq]
          · intro e2 he2
            rw [h2] at he2
            simp [hm] at he2
        · refine ⟨?_, ?_⟩
          · intro hcon
            rw [h2] at hcon
            simp [hm] at hcon
          · intro e2 _
            refine ⟨nameObjects :: (l ++ [nameIndex]), ?_, ?_⟩
            · rw [h2]
              simp [hm, hl]
            · intro hcon
              rcases List.mem_cons.mp hcon with hcon | hcon
              · exact absurd hcon (by decide)
              · rcases List.mem_append.mp hcon with hcon | hcon
                · exact hmeta_ne nameMeta hcon rfl
                · simp at hcon
                  exact absurd hcon (by decide)
      · obtain ⟨e, he⟩ := copyOne_fail env st2 nameIndex hi
        have h2 : CopyBlock env n st = (st2, some e) := by
          rw [h1]
          simp [he]
        refine ⟨by rw [h2]; simp, ?_⟩
        intro e2 _
        refine ⟨nameObjects :: l, by rw [h2]; simp [hl], ?_⟩
        intro hcon
        rcases List.mem_cons.mp hcon with hcon | hcon
        · exact absurd hcon (by decide)
        · exact hmeta_ne nameMeta hcon rfl
  · obtain ⟨e, he⟩ := copyOne_fail env st nameObjects hd
    have h1 : CopyBlock env n st = (st, some e) := by
      simp [CopyBlock, he]
    refine ⟨by rw [h1]; simp, ?_⟩
    intro e2 _
    exact ⟨[], by rw [h1]; simp, by simp⟩

end Tempo.Encoding

namespace Tempo

open Encoding

/-- C1: on both block production paths — the block writer completion step
(completeBlock, which calls the source function writeBlockMeta) and CopyBlock
— the meta document is written only after the data, the index, and every
bloom shard: a successful call appends exactly the data, the index and the n
bloom shards before the meta, with the meta last, and a call in which any
earlier write fails returns that error without ever writing the meta. -/
theorem meta_written_last (marshalOk : Bool) (n : Nat) (w : BWriter)
    (env : CopyEnv) (st : List String) :
    ((completeBlock marshalOk n w).2 = none →
      (completeBlock marshalOk n w).1.written
        = w.written ++ [nameObjects, nameIndex]
            ++ (List.range n).map bloomName ++ [nameMeta]) ∧
    (∀ e, (completeBlock marshalOk n w).2 = some e →
      ∃ l, (completeBlock marshalOk n w).1.written = w.written ++ l ∧
        nameMeta ∉ l) ∧
    ((Encoding.CopyBlock env n st).2 = none →
      (Encoding.CopyBlock env n st).1
        = st ++ [nameObjects] ++ (List.range n).map bloomName
            ++ [nameIndex, nameMeta]) ∧
    (∀ e, (Encoding.CopyBlock env n st).2 = some e →
      ∃ l, (Encoding.CopyBlock env n st).1 = st ++ l ∧ nameMeta ∉ l) :=
  ⟨(completeBlock_trace marshalOk n w).1, (completeBlock_trace marshalOk n w).2,
   (CopyBlock_trace env n st).1, (CopyBlock_trace env n st).2⟩

/-- Witness for C1 at concrete inputs: with every write succeeding, a
two-shard block write puts the meta last; a copy whose index read fails
writes no meta. -/
theorem meta_written_last_witness :
    (completeBlock true 2 ⟨fun _ => true, []⟩).1.written
      = [] ++ [nameObjects, nameIndex]
          ++ (List.range 2).map bloomName ++ [nameMeta] ∧
    (∃ l, (Encoding.CopyBlock ⟨fun s => !(s == nameIndex), fun _ => true⟩ 1 []).1
        = [] ++ l ∧ nameMeta ∉ l) :=
  ⟨(meta_written_last true 2 ⟨fun _ => true, []⟩
      ⟨fun s => !(s == nameIndex), fun _ => true⟩ []).1 rfl,
   (meta_written_last true 1 ⟨fun _ => true, []⟩
      ⟨fun s => !(s == nameIndex), fun _ => true⟩ []).2.2.2
      ("error reading " ++ nameIndex) rfl⟩

end Tempo

namespace Tempo.Encoding

lemma indexFindAux_spec (id : ID) : ∀ (l : List Record) (i0 : Nat) (r : Record) (i : Nat),
    indexFindAux id l i0 = some (r, i) →
    i0 ≤ i ∧ l.get? (i - i0) = some r ∧ r.id = id := by
  intro l
  induction l with
  | nil => intro i0 r i h; simp [indexFindAux] at h
  | cons hd tl ih =>
    intro i0 r i h
    by_cases hh : hd.id = id
    · simp [indexFindAux, hh] at h
      obtain ⟨h1, h2⟩ := h
      subst h1 h2
      simp [hh]
    · simp [indexFindAux, hh] at h
      obtain ⟨hle, hget, hid⟩ := ih (i0 + 1) r i h
      refine ⟨by omega, ?_, hid⟩
      have : i - i0 = (i - (i0 + 1)) + 1 := by omega
      rw [this]
      simpa using hget

lemma indexFind_spec (idx : List Record) (id : ID) (r : Record) (i : Nat)
    (h : indexFind idx id = some (r, i)) :
    idx.get? i = some r ∧ r.id = id := by
  obtain ⟨-, hget, hid⟩ := indexFindAux_spec id idx 0 r i h
  refine ⟨?_, hid⟩
  have h0 : i - 0 = i := by omega
  rwa [h0] at hget

lemma findFrom_spec (f : PagedFinder) (c : Bytes → Bytes → Bytes)
    (hc : f.combiner = some c) (id : ID) (i : Nat) (r : Record) (acc : Bytes)
    (hr : f.index.get? i = some r) (hid : r.id = id) :
    PagedFinder.findFrom f id r i acc
      = (matchRun f.index id i).foldlM
          (fun a r2 => (PagedFinder.findOne f id r2).map fun b => c a b) acc := by
  have hlt : i < f.index.length := by
    rw [List.get?_eq_getElem?] at hr
    exact (List.getElem?_eq_some.mp hr).1
  have hget : f.index[i] = r := by
    rw [List.get?_eq_getElem?] at hr
    obtain ⟨h1, h2⟩ := List.getElem?_eq_some.mp hr
    exact h2
  have hdrop : f.index.drop i = r :: f.index.drop (i + 1) := by
    rw [List.drop_eq_getElem_cons hlt, hget]
  have hrun : matchRun f.index id i
      = r :: (f.index.drop (i + 1)).takeWhile (fun r2 => r2.id == id) := by
    rw [matchRun, hdrop, List.takeWhile_cons_of_pos]
    simp [hid]
  rw [PagedFinder.findFrom]
  cases hone : PagedFinder.findOne f id r with
  | error e =>
    rw [hrun]
    simp [List.foldlM_cons, hone, Except.map]
    rfl
  | ok bytesOne =>
    rw [hc, hrun]
    simp only [List.foldlM_cons, hone, Except.map]
    cases hnext : indexAt f.index (i + 1) with
    | none =>
      have hdrop2 : f.index.drop (i + 1) = [] := by
        have hle : f.index.length ≤ i + 1 := by
          simpa [indexAt] using hnext
        exact List.drop_eq_nil_of_le hle
      simp [hdrop2, matchRun]
    | some r2 =>
      by_cases hr2 : r2.id = id
      · simp only [hr2, if_pos rfl]
        have hr2get : f.index.get? (i + 1) = some r2 := by
          simpa [indexAt] using hnext
        have ih := findFrom_spec f c hc id (i + 1) r2 (c acc bytesOne) hr2get hr2
        rw [ih, matchRun]
        rfl
      · simp only [if_neg hr2]
        have hdrop3 : (f.index.drop (i + 1)).takeWhile (fun r3 => r3.id == id) = [] := by
          have hd2 : f.index.drop (i + 1) = r2 :: f.index.drop (i + 2) := by
            have hlt2 : i + 1 < f.index.length := by
              simp [indexAt] at hnext
              exact (List.getElem?_eq_some.mp hnext).1
            have hget2 : f.index[i + 1] = r2 := by
              simp [indexAt] at hnext
              exact (List.getElem?_eq_some.mp hnext).2
            rw [List.drop_eq_getElem_cons hlt2, hget2]
          rw [hd2, List.takeWhile_cons_of_neg]
          simp [hr2]
        simp [hdrop3]
termination_by f.index.length - i
decreasing_by
  rw [List.get?_eq_getElem?] at hr2get
  have := (List.getElem?_eq_some.mp hr2get).1
  omega

end Tempo.Encoding

namespace Tempo

/-- C2: when pagedFinder.Find locates a record at index position i: with a
combiner set, the result is the left-to-right combination, from a nil
accumulator, of the objects fetched by findOne for the run of consecutive
index records matching the id starting at position i — stopping at the
first non-matching id or the end of the index; with no combiner the result
is exactly findOne on the single record returned by the index lookup,
consulting no further index entries. -/
theorem Find_combiner_behaviour (f : Encoding.PagedFinder) (id : Encoding.ID)
    (r : Encoding.Record) (i : Nat)
    (h : Encoding.indexFind f.index id = some (r, i)) :
    (f.combiner = none →
      Encoding.PagedFinder.Find f id = Encoding.PagedFinder.findOne f id r) ∧
    (∀ c, f.combiner = some c →
      Encoding.PagedFinder.Find f id
        = (Encoding.matchRun f.index id i).foldlM
            (fun acc r2 =>
              (Encoding.PagedFinder.findOne f id r2).map fun b => c acc b) []) := by
  obtain ⟨hget, hid⟩ := Encoding.indexFind_spec f.index id r i h
  constructor
  · intro hc
    rw [Encoding.PagedFinder.Find, h]
    cases hone : Encoding.PagedFinder.findOne f id r with
    | error e => simp [Encoding.PagedFinder.findFrom, hone]
    | ok b => simp [Encoding.PagedFinder.findFrom, hone, hc]
  · intro c hc
    rw [Encoding.PagedFinder.Find, h]
    exact Encoding.findFrom_spec f c hc id i r [] hget hid

/-- Witness for C2 at a concrete finder: an index with two consecutive
records for id [1] and a concatenating combiner returns the two page
objects combined in order. -/
theorem Find_combiner_behaviour_witness :
    Encoding.PagedFinder.Find
        ⟨[⟨[1], 0, 1⟩, ⟨[1], 1, 1⟩, ⟨[2], 2, 1⟩],
         fun r => [[(r.id, [r.start])]], some fun a b => a ++ b⟩ [1]
      = .ok [0, 1] :=
  ((Find_combiner_behaviour
      ⟨[⟨[1], 0, 1⟩, ⟨[1], 1, 1⟩, ⟨[2], 2, 1⟩],
       fun r => [[(r.id, [r.start])]], some fun a b => a ++ b⟩
      [1] ⟨[1], 0, 1⟩ 0 rfl).2 (fun a b => a ++ b) rfl).trans rfl

/-- C3: when the index lookup returns no record for the id, pagedFinder.Find
returns a nil byte slice and a nil error — absence is a valid result. -/
theorem Find_absent_ok_nil (f : Encoding.PagedFinder) (id : Encoding.ID)
    (h : Encoding.indexFind f.index id = none) :
    Encoding.PagedFinder.Find f id = .ok [] := by
  simp [Encoding.PagedFinder.Find, h]

/-- Witness for C3: an id absent from a one-record index yields ok nil. -/
theorem Find_absent_ok_nil_witness :
    Encoding.PagedFinder.Find
        ⟨[⟨[1], 0, 1⟩], fun r => [[(r.id, [r.start])]], none⟩ [9] = .ok [] :=
  Find_absent_ok_nil
    ⟨[⟨[1], 0, 1⟩], fun r => [[(r.id, [r.start])]], none⟩ [9] rfl

end Tempo

namespace Tempo.Common

/-- Reading a shard after a set: the new value at the set position when it
is in range, the old shard everywhere else. -/
lemma getD_set_cases (l : List (List Nat)) (i j : Nat) (v : List Nat) :
    (l.set j v).getD i [] = if j = i ∧ j < l.length then v else l.getD i [] := by
  by_cases h1 : j = i
  · subst h1
    by_cases h2 : j < l.length
    · simp [List.getD, List.getElem?_set_self h2, h2]
    · rw [List.set_eq_of_length_le (Nat.le_of_not_lt h2)]
      simp [h2]
  · simp [List.getD, List.getElem?_set_ne h1, h1]

/-- Add preserves the shard count. -/
lemma Add_length (b : ShardedBloomFilter) (id : Encoding.ID) :
    (b.Add id).shards.length = b.shards.length := by
  simp [ShardedBloomFilter.Add]

/-- Probing an id right after adding it succeeds. -/
lemma Test_Add_self (b : ShardedBloomFilter) (id : Encoding.ID)
    (h0 : 0 < b.shards.length) : (b.Add id).Test id = true := by
  have hkey : ShardKeyForTraceID id b.shards.length < b.shards.length :=
    Nat.mod_lt _ h0
  simp only [ShardedBloomFilter.Test, ShardedBloomFilter.Add,
    ShardedBloomFilter.GetShardCount, List.length_set, List.all_eq_true]
  intro p hp
  rw [getD_set_cases]
  simp only [hkey, and_true, if_pos rfl]
  simp only [List.contains_eq_any_beq, List.any_eq_true]
  exact ⟨p, List.mem_append_left _ hp, by simp⟩

/-- Adding another id never clears a bit: probes that succeeded still do. -/
lemma Test_Add_mono (b : ShardedBloomFilter) (x id : Encoding.ID)
    (h : b.Test id = true) : (b.Add x).Test id = true := by
  simp only [ShardedBloomFilter.Test, ShardedBloomFilter.Add,
    ShardedBloomFilter.GetShardCount, List.length_set, List.all_eq_true] at h ⊢
  intro p hp
  have hps := h p hp
  rw [getD_set_cases]
  by_cases hc : ShardKeyForTraceID x b.shards.length
      = ShardKeyForTraceID id b.shards.length ∧
      ShardKeyForTraceID x b.shards.length < b.shards.length
  · rw [if_pos hc]
    rw [hc.1] at *
    simp only [List.contains_eq_any_beq, List.any_eq_true] at hps ⊢
    obtain ⟨q, hq, hbeq⟩ := hps
    exact ⟨q, List.mem_append_right _ hq, hbeq⟩
  · rw [if_neg hc]
    exact hps

/-- A fold of Adds preserves the shard count. -/
lemma foldl_Add_length (ids : List Encoding.ID) : ∀ (b : ShardedBloomFilter),
    (ids.foldl ShardedBloomFilter.Add b).shards.length = b.shards.length := by
  induction ids with
  | nil => intro b; rfl
  | cons hd tl ih =>
    intro b
    rw [List.foldl_cons, ih, Add_length]

/-- A fold of Adds preserves successful probes. -/
lemma Test_foldl_mono (ids : List Encoding.ID) :
    ∀ (b : ShardedBloomFilter) (id : Encoding.ID),
    b.Test id = true → (ids.foldl ShardedBloomFilter.Add b).Test id = true := by
  induction ids with
  | nil => intro b id h; exact h
  | cons hd tl ih =>
    intro b id h
    rw [List.foldl_cons]
    exact ih (b.Add hd) id (Test_Add_mono b hd id h)

end Tempo.Common

namespace Tempo

/-- C4: the sharded bloom filter has no false negatives for block members —
for every id among the ids added to a bloom filter with a positive shard
count, probing the shard selected by ShardKeyForTraceID(id) =
first4Bytes(id) mod shardCount returns true. -/
theorem bloom_no_false_negatives (b : Common.ShardedBloomFilter)
    (ids : List Encoding.ID) (id : Encoding.ID)
    (h0 : 0 < b.shards.length) (hmem : id ∈ ids) :
    (ids.foldl Common.ShardedBloomFilter.Add b).Test id = true := by
  obtain ⟨s, t, rfl⟩ := List.append_of_mem hmem
  rw [List.foldl_append, List.foldl_cons]
  apply Common.Test_foldl_mono
  apply Common.Test_Add_self
  rw [Common.foldl_Add_length]
  exact h0

/-- Witness for C4: a two-shard filter with the first4Bytes hash tests
positive on an added 16-bit prefix id. -/
theorem bloom_no_false_negatives_witness :
    ((Common.ShardedBloomFilter.mk [fun i => Common.first4Bytes i] [[], []]).Add
        [1, 2, 3, 4]).Test [1, 2, 3, 4] = true := by
  have h := bloom_no_false_negatives
    ⟨[fun i => Common.first4Bytes i], [[], []]⟩
    [[1, 2, 3, 4]] [1, 2, 3, 4] (by decide) (by simp)
  simpa using h

/-- C7: readError maps the object store's not-found error to the canonical
backend ErrDoesNotExist and returns every other error unchanged. -/
theorem readError_normalizes :
    Gcs.readError .errObjectNotExist = .errDoesNotExist ∧
    ∀ e, e ≠ Gcs.GoError.errObjectNotExist → Gcs.readError e = e := by
  refine ⟨rfl, ?_⟩
  intro e he
  cases e with
  | errObjectNotExist => exact absurd rfl he
  | errDoesNotExist => rfl
  | other m => rfl

/-- Witness for C7: the error named wups, as in TestReadError, is returned
unchanged. -/
theorem readError_normalizes_witness :
    Gcs.readError (.other "wups") = .other "wups" :=
  readError_normalizes.2 (.other "wups") (by simp)

/-- C9: when the configured target is the single-binary All mode, loadConfig
forces the ingester ring KV store to inmemory, the ring replication factor
to 1 and the lifecycler address to 127.0.0.1, leaving every other field as
loaded; with any other target the config is unchanged. -/
theorem loadConfig_forces_single_binary (c : App.Config) :
    (c.target = App.Target.All →
      (App.loadConfig c).ingester.lifecyclerConfig.ringConfig.kvStore
          = "inmemory" ∧
      (App.loadConfig c).ingester.lifecyclerConfig.ringConfig.replicationFactor
          = 1 ∧
      (App.loadConfig c).ingester.lifecyclerConfig.addr = "127.0.0.1" ∧
      (App.loadConfig c).target = c.target ∧
      (App.loadConfig c).rest = c.rest ∧
      (App.loadConfig c).ingester.rest = c.ingester.rest ∧
      (App.loadConfig c).ingester.lifecyclerConfig.rest
          = c.ingester.lifecyclerConfig.rest ∧
      (App.loadConfig c).ingester.lifecyclerConfig.ringConfig.rest
          = c.ingester.lifecyclerConfig.ringConfig.rest) ∧
    (c.target ≠ App.Target.All → App.loadConfig c = c) := by
  constructor
  · intro h
    simp [App.loadConfig, h]
  · intro h
    simp [App.loadConfig, h]

/-- Witness for C9: a concrete All-target config gets the forced values and
a concrete Ingester-target config is returned unchanged. -/
theorem loadConfig_forces_single_binary_witness :
    (App.loadConfig
        ⟨.All, ⟨⟨⟨"consul", 3, "r1"⟩, "10.0.0.1", "r2"⟩, "r3"⟩, "r4"⟩
      ).ingester.lifecyclerConfig.ringConfig.kvStore = "inmemory" ∧
    App.loadConfig
        ⟨.Ingester, ⟨⟨⟨"consul", 3, "r1"⟩, "10.0.0.1", "r2"⟩, "r3"⟩, "r4"⟩
      = ⟨.Ingester, ⟨⟨⟨"consul", 3, "r1"⟩, "10.0.0.1", "r2"⟩, "r3"⟩, "r4"⟩ :=
  ⟨((loadConfig_forces_single_binary
      ⟨.All, ⟨⟨⟨"consul", 3, "r1"⟩, "10.0.0.1", "r2"⟩, "r3"⟩, "r4"⟩).1 rfl).1,
   (loadConfig_forces_single_binary
      ⟨.Ingester, ⟨⟨⟨"consul", 3, "r1"⟩, "10.0.0.1", "r2"⟩, "r3"⟩, "r4"⟩).2
      (by simp)⟩

end Tempo
